import Mathlib

/-!
# git-scanner: the `scan` command (`cmd/scan.go`)

A shallow embedding of `scanCmd.RunE` and `getGitRepository`.

* Go strings are Lean `String`s, a Go `error` is an `Option String`
  (`none` is `nil`, `some msg` an error with message `msg`).
* The functions of other packages that `scan.go` calls (`pkg/git`,
  `pkg/scanning`, `os.Create`, `strings.ToLower`) are the fields of `Env`.
  The repository behind the handle `r` is an explicit state of type `Repo`,
  passed through the calls that receive `r`.
* The named result `err` of `RunE` is an explicit variable of the run state;
  deferred calls run after the `return` statement has stored its operand in
  `err`, in reverse order of registration, and may assign to `err`.
* Every call to an external function is recorded in a trace of `Event`s.
-/

namespace GitScanner

/-! ## Data model -/

/-- Go `error`: `none` is `nil`. -/
abbrev GoError := Option String

/-- The type `plumbing.Hash` of go-git, `[20]byte`. -/
structure Hash where
  bytes : List (Fin 256)
  size : bytes.length = 20
deriving DecidableEq

/-- The parts of `object.Commit` of go-git the data model names: the hash, and as
payload the tree hash, the parent hashes and the message. -/
structure Commit where
  Hash : Hash
  TreeHash : GitScanner.Hash
  ParentHashes : List GitScanner.Hash
  Message : String
deriving DecidableEq

/-- The package-level flag variables of `scan.go`, set by cobra before `RunE` runs. -/
structure Flags where
  repoURL : String
  repoPath : String
  outputPath : String
  scanner : String
  scannerConfig : String
  userArgs : String
  keepRefs : Bool
deriving DecidableEq

/-- One call of `RunE` (or of `getGitRepository`) to a function outside `scan.go`,
with the arguments of the call. `closeOutput` is the deferred `output.Close()`. -/
inductive Event where
  | create (path : String)
  | cloneRepo (url : String)
  | existingRepo (path : String)
  | findDanglingObjects (dir : String)
  | makeRef (ref : String) (c : Commit)
  | removeReferences (refs : List String)
  | runGitleaks (dir : String) (outputPath : String) (args : List String)
  | runTrufflehog (dir : String) (outputPath : String) (args : List String)
  | closeOutput
deriving DecidableEq

/-- The functions `scan.go` calls and does not define. `Repo` is the state of the
repository behind the handle `r`; the functions that receive `r` and write to the
repository (`git.MakeRef`, `git.RemoveReferences`) return its new state. The
scanners receive the directory, the output path and the arguments, not `r`. -/
structure Env (Repo : Type) where
  /-- Go `os.Create`, its error result. -/
  Create : String → GoError
  /-- Go `git.CloneRepo`: the repository and its directory, or an error. -/
  CloneRepo : String → Except String (Repo × String)
  /-- Go `git.ExistingRepo`. -/
  ExistingRepo : String → Except String Repo
  /-- Go `git.FindDanglingObjects`, the field `Commits` of its result. -/
  FindDanglingObjects : Repo → String → Except String (List Commit)
  /-- Go `git.MakeRef`. -/
  MakeRef : Repo → String → Commit → Repo × GoError
  /-- Go `git.RemoveReferences`. -/
  RemoveReferences : Repo → List String → Repo × GoError
  /-- Go `scanning.RunGitleaks`. -/
  RunGitleaks : String → String → List String → GoError
  /-- Go `scanning.RunTrufflehog`. -/
  RunTrufflehog : String → String → List String → GoError
  /-- Go `strings.ToLower`. -/
  ToLower : String → String

/-! ## Strings -/

/-- The digit of `encoding/hex` for a nibble: `"0123456789abcdef"[n]`. -/
def hexDigit (n : Fin 16) : Char :=
  "0123456789abcdef".data.getD n.val '0'

/-- Go `hex.EncodeToString` on a byte slice: two digits per byte, high nibble first. -/
def hexEncode : List (Fin 256) → List Char
  | [] => []
  | b :: bs =>
    hexDigit ⟨b.val / 16, by omega⟩ :: hexDigit ⟨b.val % 16, by omega⟩ :: hexEncode bs

/-- Go `Hash.String()` of go-git: `hex.EncodeToString(h[:])`. -/
def Hash.String (h : Hash) : String :=
  ⟨hexEncode h.bytes⟩

/-- The pieces between the occurrences of `sep`, as `strings.Split` cuts them when the
separator is one character: one piece more than there are separators. -/
def splitChars (sep : Char) : List Char → List (List Char)
  | [] => [[]]
  | c :: cs =>
    if c = sep then [] :: splitChars sep cs
    else
      match splitChars sep cs with
      | [] => [[c]]
      | p :: ps => (c :: p) :: ps

/-- Go `strings.Split(s, " ")`. -/
def Split (s : String) : List String :=
  (splitChars ' ' s.data).map String.mk

/-- Go `strings.Join(elems, sep)`. -/
def Join : List String → String → String
  | [], _ => ""
  | [a], _ => a
  | a :: b :: rest, sep => a ++ sep ++ Join (b :: rest) sep

/-! ## `getGitRepository` -/

/-- Go `getGitRepository`: the repository and its directory, or the error of
`git.CloneRepo` (when `repoURL` is set) or of `git.ExistingRepo`; with the calls made. -/
def getGitRepository {Repo : Type} (env : Env Repo) (f : Flags) :
    Except String (Repo × String) × List Event :=
  if f.repoURL ≠ "" then
    match env.CloneRepo f.repoURL with
    | .error e => (.error e, [Event.cloneRepo f.repoURL])
    | .ok (r, dir) => (.ok (r, dir), [Event.cloneRepo f.repoURL])
  else
    match env.ExistingRepo f.repoPath with
    | .error e => (.error e, [Event.existingRepo f.repoPath])
    | .ok r => (.ok (r, f.repoPath), [Event.existingRepo f.repoPath])

/-! ## `scanCmd.RunE` -/

/-- The variables of `RunE` that are live after discovery: the repository behind `r`,
the named result `err`, `createdRefs`, and the calls made so far. -/
structure RunState (Repo : Type) where
  r : Repo
  err : GoError
  createdRefs : List String
  trace : List Event

/-- What a run leaves: the value of the named result `err` when `RunE` has returned
(its deferred calls included), the calls it made, and the repository when one was
acquired. -/
structure Outcome (Repo : Type) where
  err : GoError
  trace : List Event
  repo : Option Repo

/-- The name of the ref for a dangling commit:
`fmt.Sprintf("refs/dangling/%s", c.Hash.String())`. -/
def refName (c : Commit) : String :=
  "refs/dangling/" ++ c.Hash.String

/-- One iteration of the loop over `danglingObjs.Commits`: `err = git.MakeRef(r, ref, c)`;
on an error `continue`, else `createdRefs = append(createdRefs, ref)`. -/
def exposeStep {Repo : Type} (env : Env Repo) (s : RunState Repo) (c : Commit) :
    RunState Repo :=
  let ref := refName c
  let res := env.MakeRef s.r ref c
  match res.2 with
  | some e =>
    { r := res.1, err := some e, createdRefs := s.createdRefs,
      trace := s.trace ++ [Event.makeRef ref c] }
  | none =>
    { r := res.1, err := none, createdRefs := s.createdRefs ++ [ref],
      trace := s.trace ++ [Event.makeRef ref c] }

/-- The loop `for _, c := range danglingObjs.Commits`. -/
def exposeLoop {Repo : Type} (env : Env Repo) (s : RunState Repo) (commits : List Commit) :
    RunState Repo :=
  commits.foldl (exposeStep env) s

/-- The deferred function literal of `RunE`:
`if err = git.RemoveReferences(r, createdRefs); err != nil { log }`.
The assignment is to the named result `err` of `RunE`. -/
def deferredCleanup {Repo : Type} (env : Env Repo) (s : RunState Repo) : RunState Repo :=
  let res := env.RemoveReferences s.r s.createdRefs
  { r := res.1, err := res.2, createdRefs := s.createdRefs,
    trace := s.trace ++ [Event.removeReferences s.createdRefs] }

/-- The slice `scannerArgs`: `strings.Split(userArgs, " ")`, with
`fmt.Sprintf("--config=%s", scannerConfig)` appended when `scannerConfig != ""`. -/
def scannerArgs (f : Flags) : List String :=
  if f.scannerConfig ≠ "" then Split f.userArgs ++ ["--config=" ++ f.scannerConfig]
  else Split f.userArgs

/-- The `switch strings.ToLower(scanner)`: the value assigned to `err` and the call made. -/
def runScanner {Repo : Type} (env : Env Repo) (f : Flags) (dir : String)
    (args : List String) : GoError × List Event :=
  if env.ToLower f.scanner = "gitleaks" then
    (env.RunGitleaks dir f.outputPath args, [Event.runGitleaks dir f.outputPath args])
  else if env.ToLower f.scanner = "trufflehog" then
    (env.RunTrufflehog dir f.outputPath args, [Event.runTrufflehog dir f.outputPath args])
  else
    (some ("unknown scanner '" ++ f.scanner ++ "'"), [])

/-- The part of `RunE` after discovery, from `var createdRefs []string` to the return
of the function: the loop, the registration of the cleanup when `!keepRefs`, the
scanner, `return err`, and then the deferred cleanup when it was registered. -/
def afterDiscovery {Repo : Type} (env : Env Repo) (f : Flags) (s : RunState Repo)
    (dir : String) (commits : List Commit) : RunState Repo :=
  let s1 := exposeLoop env { s with createdRefs := [] } commits
  let res := runScanner env f dir (scannerArgs f)
  let s2 : RunState Repo := { s1 with err := res.1, trace := s1.trace ++ res.2 }
  if f.keepRefs then s2 else deferredCleanup env s2

/-- The part of `RunE` from `getGitRepository()` on, given the calls made before. -/
def afterOutput {Repo : Type} (env : Env Repo) (f : Flags) (pre : List Event) :
    Outcome Repo :=
  let acq := getGitRepository env f
  match acq.1 with
  | .error e => { err := some e, trace := pre ++ acq.2, repo := none }
  | .ok (r, dir) =>
    match env.FindDanglingObjects r dir with
    | .error e =>
      { err := some e, trace := pre ++ acq.2 ++ [Event.findDanglingObjects dir],
        repo := some r }
    | .ok commits =>
      let s := afterDiscovery env f
        { r := r, err := none, createdRefs := [],
          trace := pre ++ acq.2 ++ [Event.findDanglingObjects dir] } dir commits
      { err := s.err, trace := s.trace, repo := some s.r }

/-- Go `scanCmd.RunE`. When `outputPath` names a file it is created first (an error
returns at once) and closed by a deferred call, which runs last. -/
def RunE {Repo : Type} (env : Env Repo) (f : Flags) : Outcome Repo :=
  if f.outputPath ≠ "" ∧ f.outputPath ≠ "-" then
    match env.Create f.outputPath with
    | some e => { err := some e, trace := [Event.create f.outputPath], repo := none }
    | none =>
      let o : Outcome Repo := afterOutput env f [Event.create f.outputPath]
      { o with trace := o.trace ++ [Event.closeOutput] }
  else afterOutput env f []

/-! ## Vocabulary of the statements -/

/-- The run gets past repository acquisition and discovery: the output file, when one
is named, was created, `getGitRepository` returned the repository `r` and the directory
`dir`, and `git.FindDanglingObjects` returned `commits`. -/
def PastDiscovery {Repo : Type} (env : Env Repo) (f : Flags) (r : Repo) (dir : String)
    (commits : List Commit) : Prop :=
  (f.outputPath ≠ "" ∧ f.outputPath ≠ "-" → env.Create f.outputPath = none) ∧
  (getGitRepository env f).1 = .ok (r, dir) ∧
  env.FindDanglingObjects r dir = .ok commits

/-- The run state at the start of the loop of a run that got past discovery, before
any call is recorded. -/
def initState {Repo : Type} (r : Repo) : RunState Repo :=
  { r := r, err := none, createdRefs := [], trace := [] }

/-- The results of the successive `git.MakeRef` calls of the loop, in list order: the
pattern of successes (`none`) and failures. -/
def makeRefResults {Repo : Type} (env : Env Repo) : Repo → List Commit → List GoError
  | _, [] => []
  | r, c :: cs =>
    (env.MakeRef r (refName c) c).2 :: makeRefResults env (env.MakeRef r (refName c) c).1 cs

/-- The ref names of the commits whose `git.MakeRef` succeeded, in list order. -/
def succeededRefs {Repo : Type} (env : Env Repo) (r : Repo) (commits : List Commit) :
    List String :=
  ((commits.zip (makeRefResults env r commits)).filter (fun p => p.2.isNone)).map
    (fun p => refName p.1)

/-- The event is a call of `git.MakeRef`. -/
def Event.isMakeRef : Event → Bool
  | .makeRef _ _ => true
  | _ => false

/-- The event is a call of `git.RemoveReferences`. -/
def Event.isRemoveReferences : Event → Bool
  | .removeReferences _ => true
  | _ => false

/-- The event is a call of a scanner, `scanning.RunGitleaks` or `scanning.RunTrufflehog`. -/
def Event.isScanner : Event → Bool
  | .runGitleaks _ _ _ => true
  | .runTrufflehog _ _ _ => true
  | _ => false

/-- The event is none of the calls that create or remove a ref or run a scanner. -/
def Event.isQuiet (ev : Event) : Bool :=
  !ev.isMakeRef && !ev.isScanner && !ev.isRemoveReferences

/-- The calls a run makes before the loop, when it gets past discovery. -/
def preTrace {Repo : Type} (env : Env Repo) (f : Flags) (dir : String) : List Event :=
  (if f.outputPath ≠ "" ∧ f.outputPath ≠ "-" then [Event.create f.outputPath] else []) ++
    (getGitRepository env f).2 ++ [Event.findDanglingObjects dir]

/-- The deferred `output.Close()`, when an output file was created. -/
def closeTrace (f : Flags) : List Event :=
  if f.outputPath ≠ "" ∧ f.outputPath ≠ "-" then [Event.closeOutput] else []

/-! ## A concrete environment -/

/-- A ref store: the ref names with the hashes they point to. -/
abbrev RefStore := List (String × Hash)

/-- Modelled from the spec: `git.MakeRef` of `pkg/git`, which is not part of the
sources at hand. "If a pre-existing ref already occupies the reserved ephemeral
namespace path for a given commit hash, `Expose` for that commit reports
`RefCreationError` and does not overwrite or delete the pre-existing ref"; otherwise the
ref is created and points to the commit. -/
def storeMakeRef (r : RefStore) (ref : String) (c : Commit) : RefStore × GoError :=
  match r.lookup ref with
  | some _ => (r, some ("reference already exists: " ++ ref))
  | none => (r ++ [(ref, c.Hash)], none)

/-- Modelled from the spec: `git.RemoveReferences` of `pkg/git`, which is not part of
the sources at hand: "iterates the ephemeral registry and removes every ref it created".
The error it reports is given by `removal`. -/
def storeRemoveReferences (removal : GoError) (r : RefStore) (refs : List String) :
    RefStore × GoError :=
  (r.filter (fun p => !refs.contains p.1), removal)

/-- ASCII lower-casing. It agrees with `strings.ToLower` on ASCII strings only:
`strings.ToLower` also maps letters outside ASCII (U+212A, the Kelvin sign, to `k`),
which this function leaves as they are. -/
def asciiToLower (s : String) : String :=
  ⟨s.data.map Char.toLower⟩

/-- An environment over `RefStore`: the repository starts with the refs `refs`, discovery
finds `commits`, both scanners report `scan`, the removal of refs reports `removal`.
`ToLower` is `asciiToLower`, so the environment stands for runs whose scanner name is
ASCII. -/
def storeEnv (refs : RefStore) (commits : List Commit) (scan removal : GoError) :
    Env RefStore where
  Create := fun _ => none
  CloneRepo := fun _ => .ok (refs, "/tmp/clone")
  ExistingRepo := fun _ => .ok refs
  FindDanglingObjects := fun _ _ => .ok commits
  MakeRef := storeMakeRef
  RemoveReferences := storeRemoveReferences removal
  RunGitleaks := fun _ _ _ => scan
  RunTrufflehog := fun _ _ _ => scan
  ToLower := asciiToLower

/-- The hash whose twenty bytes are all `b`. -/
def hashOf (b : Fin 256) : Hash :=
  ⟨List.replicate 20 b, by simp⟩

/-- A commit with the hash `hashOf b` and no parents. -/
def commitOf (b : Fin 256) : Commit :=
  { Hash := hashOf b, TreeHash := hashOf 0, ParentHashes := [], Message := "" }

/-- Flags of a run on the repository at `/repo` with the scanner `scanner`. -/
def flagsOf (scanner : String) (keepRefs : Bool) : Flags :=
  { repoURL := "", repoPath := "/repo", outputPath := "", scanner := scanner,
    scannerConfig := "", userArgs := "", keepRefs := keepRefs }

/-- An environment in which the repository cannot be opened. -/
def noRepoEnv : Env RefStore :=
  { storeEnv [] [commitOf 1] none none with
    ExistingRepo := fun _ => .error "repository does not exist" }

/-! ## Lemmas -/

theorem hexDigit_injective : ∀ a b : Fin 16, hexDigit a = hexDigit b → a = b := by
  decide

theorem hexEncode_injective : ∀ l m : List (Fin 256), hexEncode l = hexEncode m → l = m
  | [], [], _ => rfl
  | [], _ :: _, h => by simp [hexEncode] at h
  | _ :: _, [], h => by simp [hexEncode] at h
  | a :: l, b :: m, h => by
    simp only [hexEncode, List.cons.injEq] at h
    obtain ⟨h1, h2, h3⟩ := h
    have e1 := hexDigit_injective _ _ h1
    have e2 := hexDigit_injective _ _ h2
    simp only [Fin.mk.injEq] at e1 e2
    have : a = b := by
      apply Fin.ext
      omega
    rw [this, hexEncode_injective l m h3]

theorem hexEncode_length (l : List (Fin 256)) : (hexEncode l).length = 2 * l.length := by
  induction l with
  | nil => rfl
  | cons a l ih => simp only [hexEncode, List.length_cons, ih]; omega

theorem Hash_String_injective (h k : Hash) (e : h.String = k.String) : h = k := by
  cases h with
  | mk hb hs =>
    cases k with
    | mk kb ks =>
      have := hexEncode_injective _ _ (congrArg String.data e)
      subst this
      rfl

theorem refName_data (c : Commit) :
    (refName c).data = "refs/dangling/".data ++ hexEncode c.Hash.bytes := by
  simp [refName, Hash.String]

theorem refName_injective (c d : Commit) (e : refName c = refName d) : c.Hash = d.Hash := by
  have h := congrArg String.data e
  rw [refName_data, refName_data] at h
  have h2 := List.append_cancel_left h
  apply Hash_String_injective
  simp [Hash.String, h2]

theorem exposeStep_trace {Repo : Type} (env : Env Repo) (s : RunState Repo) (c : Commit) :
    (exposeStep env s c).trace = s.trace ++ [Event.makeRef (refName c) c] := by
  unfold exposeStep
  cases h : (env.MakeRef s.r (refName c) c).2 <;> simp [h]

theorem exposeStep_r {Repo : Type} (env : Env Repo) (s : RunState Repo) (c : Commit) :
    (exposeStep env s c).r = (env.MakeRef s.r (refName c) c).1 := by
  unfold exposeStep
  cases h : (env.MakeRef s.r (refName c) c).2 <;> simp [h]

theorem exposeStep_createdRefs {Repo : Type} (env : Env Repo) (s : RunState Repo)
    (c : Commit) :
    (exposeStep env s c).createdRefs =
      s.createdRefs ++
        (if (env.MakeRef s.r (refName c) c).2.isNone then [refName c] else []) := by
  unfold exposeStep
  cases h : (env.MakeRef s.r (refName c) c).2 <;> simp [h]

theorem exposeLoop_trace {Repo : Type} (env : Env Repo) (commits : List Commit) :
    ∀ s : RunState Repo, (exposeLoop env s commits).trace =
      s.trace ++ commits.map (fun c => Event.makeRef (refName c) c) := by
  induction commits with
  | nil => intro s; simp [exposeLoop]
  | cons c cs ih =>
    intro s
    have := ih (exposeStep env s c)
    simp only [exposeLoop, List.foldl_cons] at this ⊢
    rw [this, exposeStep_trace]
    simp

theorem exposeLoop_r {Repo : Type} (env : Env Repo) (commits : List Commit) :
    ∀ s : RunState Repo, (exposeLoop env s commits).r =
      (exposeLoop env (initState s.r) commits).r := by
  induction commits with
  | nil => intro s; simp [exposeLoop, initState]
  | cons c cs ih =>
    intro s
    have h1 := ih (exposeStep env s c)
    have h2 := ih (exposeStep env (initState s.r) c)
    simp only [exposeLoop, List.foldl_cons] at h1 h2 ⊢
    rw [h1, h2, exposeStep_r, exposeStep_r]
    simp [initState]

theorem exposeLoop_createdRefs {Repo : Type} (env : Env Repo) (commits : List Commit) :
    ∀ s : RunState Repo, (exposeLoop env s commits).createdRefs =
      s.createdRefs ++ succeededRefs env s.r commits := by
  induction commits with
  | nil => intro s; simp [exposeLoop, succeededRefs, makeRefResults]
  | cons c cs ih =>
    intro s
    have := ih (exposeStep env s c)
    simp only [exposeLoop, List.foldl_cons] at this ⊢
    rw [this, exposeStep_createdRefs, exposeStep_r]
    simp only [succeededRefs, makeRefResults, List.zip_cons_cons, List.filter_cons]
    cases h : (env.MakeRef s.r (refName c) c).2 <;> simp

theorem afterDiscovery_trace {Repo : Type} (env : Env Repo) (f : Flags) (s : RunState Repo)
    (dir : String) (commits : List Commit) :
    (afterDiscovery env f s dir commits).trace =
      s.trace ++ (commits.map (fun c => Event.makeRef (refName c) c) ++
        ((runScanner env f dir (scannerArgs f)).2 ++
          (if f.keepRefs then []
           else [Event.removeReferences (succeededRefs env s.r commits)]))) := by
  unfold afterDiscovery
  cases hk : f.keepRefs
  · simp [deferredCleanup, exposeLoop_trace, exposeLoop_createdRefs]
  · simp [exposeLoop_trace]

theorem afterDiscovery_err {Repo : Type} (env : Env Repo) (f : Flags) (s : RunState Repo)
    (dir : String) (commits : List Commit) :
    (afterDiscovery env f s dir commits).err =
      if f.keepRefs then (runScanner env f dir (scannerArgs f)).1
      else (env.RemoveReferences (exposeLoop env (initState s.r) commits).r
        (succeededRefs env s.r commits)).2 := by
  unfold afterDiscovery
  cases hk : f.keepRefs
  · simp only [deferredCleanup, Bool.false_eq_true, if_false]
    rw [exposeLoop_createdRefs, exposeLoop_r]
    simp
  · simp

theorem afterDiscovery_r {Repo : Type} (env : Env Repo) (f : Flags) (s : RunState Repo)
    (dir : String) (commits : List Commit) :
    (afterDiscovery env f s dir commits).r =
      if f.keepRefs then (exposeLoop env (initState s.r) commits).r
      else (env.RemoveReferences (exposeLoop env (initState s.r) commits).r
        (succeededRefs env s.r commits)).1 := by
  unfold afterDiscovery
  cases hk : f.keepRefs
  · simp only [deferredCleanup, Bool.false_eq_true, if_false]
    rw [exposeLoop_createdRefs, exposeLoop_r]
    simp
  · simp only [if_true]
    rw [exposeLoop_r]

theorem afterDiscovery_initState {Repo : Type} (env : Env Repo) (f : Flags)
    (s : RunState Repo) (dir : String) (commits : List Commit) :
    (afterDiscovery env f s dir commits).err =
      (afterDiscovery env f (initState s.r) dir commits).err ∧
    (afterDiscovery env f s dir commits).trace =
      s.trace ++ (afterDiscovery env f (initState s.r) dir commits).trace ∧
    (afterDiscovery env f s dir commits).r =
      (afterDiscovery env f (initState s.r) dir commits).r := by
  refine ⟨?_, ?_, ?_⟩
  · rw [afterDiscovery_err, afterDiscovery_err]; simp [initState]
  · rw [afterDiscovery_trace, afterDiscovery_trace]; simp [initState]
  · rw [afterDiscovery_r, afterDiscovery_r]; simp [initState]

theorem afterOutput_of_pastDiscovery {Repo : Type} (env : Env Repo) (f : Flags) (r : Repo)
    (dir : String) (commits : List Commit) (pre : List Event)
    (hg : (getGitRepository env f).1 = .ok (r, dir))
    (hd : env.FindDanglingObjects r dir = .ok commits) :
    afterOutput env f pre =
      { err := (afterDiscovery env f (initState r) dir commits).err,
        trace := pre ++ (getGitRepository env f).2 ++ [Event.findDanglingObjects dir] ++
          (afterDiscovery env f (initState r) dir commits).trace,
        repo := some (afterDiscovery env f (initState r) dir commits).r } := by
  unfold afterOutput
  simp only [hg, hd]
  obtain ⟨h1, h2, h3⟩ := afterDiscovery_initState env f
    { r := r, err := none, createdRefs := [],
      trace := pre ++ (getGitRepository env f).2 ++ [Event.findDanglingObjects dir] }
    dir commits
  rw [h1, h2, h3]

theorem RunE_of_pastDiscovery {Repo : Type} (env : Env Repo) (f : Flags) (r : Repo)
    (dir : String) (commits : List Commit) (h : PastDiscovery env f r dir commits) :
    (RunE env f).err = (afterDiscovery env f (initState r) dir commits).err ∧
    (RunE env f).trace = preTrace env f dir ++
      (afterDiscovery env f (initState r) dir commits).trace ++ closeTrace f ∧
    (RunE env f).repo = some (afterDiscovery env f (initState r) dir commits).r := by
  obtain ⟨hc, hg, hd⟩ := h
  unfold RunE preTrace closeTrace
  by_cases ho : f.outputPath ≠ "" ∧ f.outputPath ≠ "-"
  · rw [if_pos ho, if_pos ho, if_pos ho, hc ho,
      afterOutput_of_pastDiscovery env f r dir commits _ hg hd]
    simp
  · rw [if_neg ho, if_neg ho, if_neg ho,
      afterOutput_of_pastDiscovery env f r dir commits _ hg hd]
    simp

theorem getGitRepository_quiet {Repo : Type} (env : Env Repo) (f : Flags) :
    ∀ ev ∈ (getGitRepository env f).2, ev.isQuiet = true := by
  intro ev hev
  unfold getGitRepository at hev
  split at hev
  · split at hev <;> simp at hev <;> subst hev <;> rfl
  · split at hev <;> simp at hev <;> subst hev <;> rfl

theorem preTrace_quiet {Repo : Type} (env : Env Repo) (f : Flags) (dir : String) :
    ∀ ev ∈ preTrace env f dir, ev.isQuiet = true := by
  intro ev hev
  unfold preTrace at hev
  simp only [List.mem_append, List.mem_singleton] at hev
  rcases hev with (hev | hev) | hev
  · split at hev
    · simp at hev; subst hev; rfl
    · simp at hev
  · exact getGitRepository_quiet env f ev hev
  · subst hev; rfl

theorem closeTrace_quiet (f : Flags) : ∀ ev ∈ closeTrace f, ev.isQuiet = true := by
  intro ev hev
  unfold closeTrace at hev
  split at hev
  · simp at hev; subst hev; rfl
  · simp at hev

theorem afterOutput_of_acquisition_error {Repo : Type} (env : Env Repo) (f : Flags)
    (pre : List Event) (e : String) (hg : (getGitRepository env f).1 = .error e) :
    afterOutput env f pre =
      { err := some e, trace := pre ++ (getGitRepository env f).2, repo := none } := by
  unfold afterOutput
  simp only [hg]

theorem afterOutput_of_discovery_error {Repo : Type} (env : Env Repo) (f : Flags)
    (pre : List Event) (r : Repo) (dir e : String)
    (hg : (getGitRepository env f).1 = .ok (r, dir))
    (hd : env.FindDanglingObjects r dir = .error e) :
    afterOutput env f pre =
      { err := some e,
        trace := pre ++ (getGitRepository env f).2 ++ [Event.findDanglingObjects dir],
        repo := some r } := by
  unfold afterOutput
  simp only [hg, hd]

/-- A run either gets past discovery, or it makes no call that creates or removes a
ref or runs a scanner. -/
theorem RunE_pastDiscovery_or_quiet {Repo : Type} (env : Env Repo) (f : Flags) :
    (∃ r dir commits, PastDiscovery env f r dir commits) ∨
      ∀ ev ∈ (RunE env f).trace, ev.isQuiet = true := by
  have key : ∀ pre : List Event, (∀ ev ∈ pre, ev.isQuiet = true) →
      (∃ r dir commits, (getGitRepository env f).1 = .ok (r, dir) ∧
        env.FindDanglingObjects r dir = .ok commits) ∨
      ∀ ev ∈ (afterOutput env f pre).trace, ev.isQuiet = true := by
    intro pre hpre
    cases hg : (getGitRepository env f).1 with
    | error e =>
      right
      rw [afterOutput_of_acquisition_error env f pre e hg]
      intro ev hev
      simp only [List.mem_append] at hev
      rcases hev with hev | hev
      · exact hpre ev hev
      · exact getGitRepository_quiet env f ev hev
    | ok p =>
      obtain ⟨r, dir⟩ := p
      cases hd : env.FindDanglingObjects r dir with
      | error e =>
        right
        rw [afterOutput_of_discovery_error env f pre r dir e hg hd]
        intro ev hev
        simp only [List.mem_append, List.mem_singleton] at hev
        rcases hev with (hev | hev) | hev
        · exact hpre ev hev
        · exact getGitRepository_quiet env f ev hev
        · subst hev; rfl
      | ok commits => exact Or.inl ⟨r, dir, commits, rfl, hd⟩
  unfold RunE
  by_cases ho : f.outputPath ≠ "" ∧ f.outputPath ≠ "-"
  · rw [if_pos ho]
    cases hc : env.Create f.outputPath with
    | some e =>
      right
      intro ev hev
      simp at hev
      subst hev
      rfl
    | none =>
      rcases key [Event.create f.outputPath] (by intro ev hev; simp at hev; subst hev; rfl)
        with ⟨r, dir, commits, hg, hd⟩ | hq
      · exact Or.inl ⟨r, dir, commits, fun _ => hc, hg, hd⟩
      · right
        intro ev hev
        simp only [List.mem_append, List.mem_singleton] at hev
        rcases hev with hev | hev
        · exact hq ev hev
        · subst hev; rfl
  · rw [if_neg ho]
    rcases key [] (by simp) with ⟨r, dir, commits, hg, hd⟩ | hq
    · exact Or.inl ⟨r, dir, commits, fun h => absurd h ho, hg, hd⟩
    · exact Or.inr hq

/-- The trace of a run that got past discovery, call by call. -/
theorem RunE_trace_of_pastDiscovery {Repo : Type} (env : Env Repo) (f : Flags) (r : Repo)
    (dir : String) (commits : List Commit) (h : PastDiscovery env f r dir commits) :
    (RunE env f).trace = preTrace env f dir ++
      (commits.map (fun c => Event.makeRef (refName c) c) ++
        ((runScanner env f dir (scannerArgs f)).2 ++
          ((if f.keepRefs then []
            else [Event.removeReferences (succeededRefs env r commits)]) ++
            closeTrace f))) := by
  rw [(RunE_of_pastDiscovery env f r dir commits h).2.1, afterDiscovery_trace]
  simp [initState]

theorem runScanner_trace {Repo : Type} (env : Env Repo) (f : Flags) (dir : String)
    (args : List String) :
    (runScanner env f dir args).2 =
      if env.ToLower f.scanner = "gitleaks" then [Event.runGitleaks dir f.outputPath args]
      else if env.ToLower f.scanner = "trufflehog" then
        [Event.runTrufflehog dir f.outputPath args]
      else [] := by
  unfold runScanner
  split
  · rfl
  · split <;> rfl

theorem isQuiet_iff (ev : Event) :
    ev.isQuiet = true ↔
      ev.isMakeRef = false ∧ ev.isScanner = false ∧ ev.isRemoveReferences = false := by
  cases ev <;> simp [Event.isQuiet, Event.isMakeRef, Event.isScanner,
    Event.isRemoveReferences]

theorem filter_isScanner_of_quiet (l : List Event) (h : ∀ ev ∈ l, ev.isQuiet = true) :
    l.filter Event.isScanner = [] := by
  rw [List.filter_eq_nil_iff]
  intro ev hev
  simp [((isQuiet_iff ev).1 (h ev hev)).2.1]

theorem filter_isMakeRef_of_quiet (l : List Event) (h : ∀ ev ∈ l, ev.isQuiet = true) :
    l.filter Event.isMakeRef = [] := by
  rw [List.filter_eq_nil_iff]
  intro ev hev
  simp [((isQuiet_iff ev).1 (h ev hev)).1]

theorem filter_isRemoveReferences_of_quiet (l : List Event)
    (h : ∀ ev ∈ l, ev.isQuiet = true) : l.filter Event.isRemoveReferences = [] := by
  rw [List.filter_eq_nil_iff]
  intro ev hev
  simp [((isQuiet_iff ev).1 (h ev hev)).2.2]

theorem filter_makeRefs (commits : List Commit) :
    (commits.map (fun c => Event.makeRef (refName c) c)).filter Event.isMakeRef =
        commits.map (fun c => Event.makeRef (refName c) c) ∧
      (commits.map (fun c => Event.makeRef (refName c) c)).filter Event.isScanner = [] ∧
      (commits.map (fun c => Event.makeRef (refName c) c)).filter
        Event.isRemoveReferences = [] := by
  refine ⟨?_, ?_, ?_⟩
  · rw [List.filter_eq_self]
    intro ev hev
    simp only [List.mem_map] at hev
    obtain ⟨c, _, rfl⟩ := hev
    rfl
  · rw [List.filter_eq_nil_iff]
    intro ev hev
    simp only [List.mem_map] at hev
    obtain ⟨c, _, rfl⟩ := hev
    simp [Event.isScanner]
  · rw [List.filter_eq_nil_iff]
    intro ev hev
    simp only [List.mem_map] at hev
    obtain ⟨c, _, rfl⟩ := hev
    simp [Event.isRemoveReferences]

theorem filter_runScanner {Repo : Type} (env : Env Repo) (f : Flags) (dir : String)
    (args : List String) :
    (runScanner env f dir args).2.filter Event.isScanner = (runScanner env f dir args).2 ∧
      (runScanner env f dir args).2.filter Event.isMakeRef = [] ∧
      (runScanner env f dir args).2.filter Event.isRemoveReferences = [] := by
  rw [runScanner_trace]
  split
  · simp [Event.isScanner, Event.isMakeRef, Event.isRemoveReferences]
  · split <;> simp [Event.isScanner, Event.isMakeRef, Event.isRemoveReferences]

/-- The value `RunE` returns when the run got past discovery: the scanner step's `err`
when `keepRefs` is set, and else what the deferred cleanup assigned to `err`. -/
theorem RunE_err_of_pastDiscovery {Repo : Type} (env : Env Repo) (f : Flags) (r : Repo)
    (dir : String) (commits : List Commit) (h : PastDiscovery env f r dir commits) :
    (RunE env f).err =
      if f.keepRefs then (runScanner env f dir (scannerArgs f)).1
      else (env.RemoveReferences (exposeLoop env (initState r) commits).r
        (succeededRefs env r commits)).2 := by
  rw [(RunE_of_pastDiscovery env f r dir commits h).1, afterDiscovery_err]
  simp [initState]

theorem RunE_repo_of_pastDiscovery {Repo : Type} (env : Env Repo) (f : Flags) (r : Repo)
    (dir : String) (commits : List Commit) (h : PastDiscovery env f r dir commits) :
    (RunE env f).repo =
      some (if f.keepRefs then (exposeLoop env (initState r) commits).r
        else (env.RemoveReferences (exposeLoop env (initState r) commits).r
          (succeededRefs env r commits)).1) := by
  rw [(RunE_of_pastDiscovery env f r dir commits h).2.2, afterDiscovery_r]
  simp [initState]

theorem succeededRefs_cons {Repo : Type} (env : Env Repo) (r : Repo) (c : Commit)
    (cs : List Commit) :
    succeededRefs env r (c :: cs) =
      (if (env.MakeRef r (refName c) c).2.isNone then [refName c] else []) ++
        succeededRefs env (env.MakeRef r (refName c) c).1 cs := by
  simp only [succeededRefs, makeRefResults, List.zip_cons_cons, List.filter_cons]
  cases h : (env.MakeRef r (refName c) c).2 <;> simp

theorem mem_succeededRefs {Repo : Type} (env : Env Repo) (r : Repo) (commits : List Commit)
    (x : String) (hx : x ∈ succeededRefs env r commits) :
    ∃ c ∈ commits, x = refName c := by
  simp only [succeededRefs, List.mem_map, List.mem_filter] at hx
  obtain ⟨p, ⟨hp, _⟩, rfl⟩ := hx
  exact ⟨p.1, (List.of_mem_zip hp).1, rfl⟩

theorem makeRefResults_length {Repo : Type} (env : Env Repo) (commits : List Commit) :
    ∀ r : Repo, (makeRefResults env r commits).length = commits.length := by
  induction commits with
  | nil => intro r; rfl
  | cons c cs ih => intro r; simp [makeRefResults, ih]

/-- With pairwise distinct hashes, the name of a commit whose `git.MakeRef` call failed
is not among the names of the calls that succeeded. -/
theorem failed_not_mem_succeededRefs {Repo : Type} (env : Env Repo)
    (commits : List Commit) :
    ∀ r : Repo, (commits.map (fun c => c.Hash)).Nodup →
      ∀ (c : Commit) (e : String), (c, some e) ∈ commits.zip (makeRefResults env r commits) →
        refName c ∉ succeededRefs env r commits := by
  induction commits with
  | nil => intro r _ c e h; simp at h
  | cons c0 cs ih =>
    intro r hnd c e hmem
    simp only [List.map_cons, List.nodup_cons, List.mem_map, not_exists, not_and] at hnd
    obtain ⟨hnot, hnd⟩ := hnd
    rw [succeededRefs_cons]
    simp only [makeRefResults, List.zip_cons_cons, List.mem_cons, Prod.mk.injEq] at hmem
    rcases hmem with ⟨rfl, he⟩ | hmem
    · rw [← he]
      simp only [Option.isNone_some, Bool.false_eq_true, if_false, List.nil_append]
      intro hx
      obtain ⟨c', hc', hname⟩ := mem_succeededRefs env _ cs _ hx
      exact hnot c' hc' (refName_injective _ _ hname).symm
    · intro hx
      simp only [List.mem_append] at hx
      rcases hx with hx | hx
      · split at hx
        · simp only [List.mem_singleton] at hx
          exact hnot c (List.of_mem_zip hmem).1 (refName_injective _ _ hx)
        · simp at hx
      · exact ih _ hnd c e hmem hx

/-- The ref and scanner calls of a run that got past discovery, by kind. -/
theorem RunE_filters_of_pastDiscovery {Repo : Type} (env : Env Repo) (f : Flags) (r : Repo)
    (dir : String) (commits : List Commit) (h : PastDiscovery env f r dir commits) :
    (RunE env f).trace.filter Event.isMakeRef =
        commits.map (fun c => Event.makeRef (refName c) c) ∧
      (RunE env f).trace.filter Event.isScanner = (runScanner env f dir (scannerArgs f)).2 ∧
      (RunE env f).trace.filter Event.isRemoveReferences =
        if f.keepRefs then [] else [Event.removeReferences (succeededRefs env r commits)] := by
  have hp := preTrace_quiet env f dir
  have hc := closeTrace_quiet f
  obtain ⟨m1, m2, m3⟩ := filter_makeRefs commits
  obtain ⟨s1, s2, s3⟩ := filter_runScanner env f dir (scannerArgs f)
  rw [RunE_trace_of_pastDiscovery env f r dir commits h]
  refine ⟨?_, ?_, ?_⟩
  · cases f.keepRefs <;>
      simp [List.filter_append, filter_isMakeRef_of_quiet _ hp,
        filter_isMakeRef_of_quiet _ hc, m1, s2, Event.isMakeRef]
  · cases f.keepRefs <;>
      simp [List.filter_append, filter_isScanner_of_quiet _ hp,
        filter_isScanner_of_quiet _ hc, m2, s1, Event.isScanner]
  · cases f.keepRefs <;>
      simp [List.filter_append, filter_isRemoveReferences_of_quiet _ hp,
        filter_isRemoveReferences_of_quiet _ hc, m3, s3, Event.isRemoveReferences]

theorem splitChars_ne_nil (sep : Char) : ∀ l : List Char, splitChars sep l ≠ []
  | [] => by simp [splitChars]
  | c :: cs => by
    unfold splitChars
    split
    · simp
    · split <;> simp

theorem splitChars_length (sep : Char) :
    ∀ l : List Char, (splitChars sep l).length = l.count sep + 1
  | [] => by simp [splitChars]
  | c :: cs => by
    have ih := splitChars_length sep cs
    unfold splitChars
    by_cases h : c = sep
    · subst h
      simp [ih]
    · rw [if_neg h]
      have hc : (c :: cs).count sep = cs.count sep := by
        rw [List.count_cons_of_ne (Ne.symm h)]
      rw [hc, ← ih]
      cases hs : splitChars sep cs with
      | nil => exact absurd hs (splitChars_ne_nil sep cs)
      | cons p ps => simp

theorem not_mem_of_mem_splitChars (sep : Char) :
    ∀ l : List Char, ∀ p ∈ splitChars sep l, sep ∉ p
  | [], p, hp => by
    simp [splitChars] at hp
    subst hp
    simp
  | c :: cs, p, hp => by
    have ih := not_mem_of_mem_splitChars sep cs
    unfold splitChars at hp
    by_cases h : c = sep
    · rw [if_pos h] at hp
      simp only [List.mem_cons] at hp
      rcases hp with rfl | hp
      · simp
      · exact ih p hp
    · rw [if_neg h] at hp
      cases hs : splitChars sep cs with
      | nil => exact absurd hs (splitChars_ne_nil sep cs)
      | cons q qs =>
        rw [hs] at hp ih
        simp only [List.mem_cons] at hp
        rcases hp with rfl | hp
        · intro hmem
          simp only [List.mem_cons] at hmem
          rcases hmem with hmem | hmem
          · exact h hmem.symm
          · exact ih q (by simp) hmem
        · exact ih p (by simp [hp])

theorem splitChars_append_sep (sep : Char) (b : List Char) :
    ∀ a : List Char, splitChars sep (a ++ sep :: b) = splitChars sep a ++ splitChars sep b
  | [] => by simp [splitChars]
  | c :: cs => by
    have ih := splitChars_append_sep sep b cs
    rw [List.cons_append]
    by_cases h : c = sep
    · rw [splitChars, if_pos h, ih, splitChars, if_pos h]
      rfl
    · rw [splitChars, if_neg h, ih, splitChars, if_neg h]
      cases hs : splitChars sep cs with
      | nil => exact absurd hs (splitChars_ne_nil sep cs)
      | cons p ps => rfl

theorem Join_cons_cons_data (a b : String) (rest : List String) (sep : String) :
    (Join (a :: b :: rest) sep).data = a.data ++ sep.data ++ (Join (b :: rest) sep).data := by
  simp [Join]

theorem Join_splitChars (sep : Char) :
    ∀ l : List Char, (Join ((splitChars sep l).map String.mk) ⟨[sep]⟩).data = l
  | [] => by simp [splitChars, Join]
  | c :: cs => by
    have ih := Join_splitChars sep cs
    unfold splitChars
    cases hs : splitChars sep cs with
    | nil => exact absurd hs (splitChars_ne_nil sep cs)
    | cons p ps =>
      rw [hs] at ih
      by_cases h : c = sep
      · rw [if_pos h]
        simp only [List.map_cons] at ih ⊢
        rw [Join_cons_cons_data, ih, h]
        simp
      · rw [if_neg h]
        cases ps with
        | nil =>
          simp only [List.map_cons, List.map_nil, Join] at ih ⊢
          rw [← ih]
        | cons q qs =>
          simp only [List.map_cons] at ih ⊢
          rw [Join_cons_cons_data] at ih ⊢
          simp only at ih ⊢
          rw [← ih]
          simp

theorem Join_Split (s : String) : Join (Split s) " " = s := by
  apply String.ext
  exact Join_splitChars ' ' s.data

theorem Split_append_space (a b : String) : Split (a ++ " " ++ b) = Split a ++ Split b := by
  unfold Split
  have : (a ++ " " ++ b).data = a.data ++ ' ' :: b.data := by simp
  rw [this, splitChars_append_sep, List.map_append]

/-! ## The scan command: error paths before exposure -/

/-- C7. When the run reaches repository acquisition (the output file, if one is named,
was created) and `getGitRepository` returns an error `e`, or it returns a repository on
which `git.FindDanglingObjects` returns an error `e`, then `RunE` returns `e` and its
trace holds no call of `git.MakeRef`, of a scanner or of `git.RemoveReferences`. -/
theorem acquisition_or_discovery_error_aborts {Repo : Type} (env : Env Repo) (f : Flags)
    (e : String)
    (hc : f.outputPath ≠ "" ∧ f.outputPath ≠ "-" → env.Create f.outputPath = none)
    (h : (getGitRepository env f).1 = .error e ∨
      ∃ r dir, (getGitRepository env f).1 = .ok (r, dir) ∧
        env.FindDanglingObjects r dir = .error e) :
    (RunE env f).err = some e ∧
      ∀ ev ∈ (RunE env f).trace,
        ev.isMakeRef = false ∧ ev.isScanner = false ∧ ev.isRemoveReferences = false := by
  have hq : ∀ ev : Event, ev.isQuiet = true →
      ev.isMakeRef = false ∧ ev.isScanner = false ∧ ev.isRemoveReferences = false := by
    intro ev
    cases ev <;> simp [Event.isQuiet, Event.isMakeRef, Event.isScanner,
      Event.isRemoveReferences]
  have key : ∀ pre : List Event, (∀ ev ∈ pre, ev.isQuiet = true) →
      (afterOutput env f pre).err = some e ∧
        ∀ ev ∈ (afterOutput env f pre).trace, ev.isQuiet = true := by
    intro pre hpre
    rcases h with hg | ⟨r, dir, hg, hd⟩
    · rw [afterOutput_of_acquisition_error env f pre e hg]
      refine ⟨rfl, ?_⟩
      intro ev hev
      simp only [List.mem_append] at hev
      rcases hev with hev | hev
      · exact hpre ev hev
      · exact getGitRepository_quiet env f ev hev
    · rw [afterOutput_of_discovery_error env f pre r dir e hg hd]
      refine ⟨rfl, ?_⟩
      intro ev hev
      simp only [List.mem_append, List.mem_singleton] at hev
      rcases hev with (hev | hev) | hev
      · exact hpre ev hev
      · exact getGitRepository_quiet env f ev hev
      · subst hev; rfl
  unfold RunE
  by_cases ho : f.outputPath ≠ "" ∧ f.outputPath ≠ "-"
  · rw [if_pos ho, hc ho]
    obtain ⟨h1, h2⟩ := key [Event.create f.outputPath]
      (by intro ev hev; simp at hev; subst hev; rfl)
    refine ⟨h1, ?_⟩
    intro ev hev
    simp only [List.mem_append, List.mem_singleton] at hev
    rcases hev with hev | hev
    · exact hq ev (h2 ev hev)
    · subst hev; exact ⟨rfl, rfl, rfl⟩
  · rw [if_neg ho]
    obtain ⟨h1, h2⟩ := key [] (by simp)
    exact ⟨h1, fun ev hev => hq ev (h2 ev hev)⟩

/-- C7 at a run on a path that holds no repository: the run returns the error of
`git.ExistingRepo`, and makes no ref or scanner call. -/
theorem acquisition_or_discovery_error_aborts_witness :
    (getGitRepository noRepoEnv (flagsOf "gitleaks" false)).1 =
        .error "repository does not exist" ∧
      (RunE noRepoEnv (flagsOf "gitleaks" false)).err = some "repository does not exist" ∧
      ∀ ev ∈ (RunE noRepoEnv (flagsOf "gitleaks" false)).trace,
        ev.isMakeRef = false ∧ ev.isScanner = false ∧ ev.isRemoveReferences = false :=
  ⟨rfl, acquisition_or_discovery_error_aborts noRepoEnv (flagsOf "gitleaks" false)
    "repository does not exist" (by decide) (Or.inl rfl)⟩

/-! ## The scan command: the scanner step -/

/-- C9. In a run that got past discovery the scanner calls are decided by
`strings.ToLower(scanner)`: for `"gitleaks"` the one scanner call is
`RunGitleaks(dir, outputPath, scannerArgs...)`, for `"trufflehog"` it is
`RunTrufflehog(dir, outputPath, scannerArgs...)`, for any other string there is none;
`dir` is the directory `getGitRepository` returned, `outputPath` the flag and
`scannerArgs` the built argument list. -/
theorem scanner_dispatch {Repo : Type} (env : Env Repo) (f : Flags) (r : Repo)
    (dir : String) (commits : List Commit) (h : PastDiscovery env f r dir commits) :
    (RunE env f).trace.filter Event.isScanner =
      if env.ToLower f.scanner = "gitleaks" then
        [Event.runGitleaks dir f.outputPath (scannerArgs f)]
      else if env.ToLower f.scanner = "trufflehog" then
        [Event.runTrufflehog dir f.outputPath (scannerArgs f)]
      else [] := by
  have hpre : (preTrace env f dir).filter Event.isScanner = [] := by
    rw [List.filter_eq_nil_iff]
    intro ev hev
    have := preTrace_quiet env f dir ev hev
    cases ev <;> simp_all [Event.isQuiet, Event.isScanner]
  have hclose : (closeTrace f).filter Event.isScanner = [] := by
    rw [List.filter_eq_nil_iff]
    intro ev hev
    have := closeTrace_quiet f ev hev
    cases ev <;> simp_all [Event.isQuiet, Event.isScanner]
  have hmk : (commits.map (fun c => Event.makeRef (refName c) c)).filter Event.isScanner
      = [] := by
    rw [List.filter_eq_nil_iff]
    intro ev hev
    simp only [List.mem_map] at hev
    obtain ⟨c, _, rfl⟩ := hev
    simp [Event.isScanner]
  have hrm : (if f.keepRefs then []
      else [Event.removeReferences (succeededRefs env r commits)]).filter Event.isScanner
      = [] := by
    cases f.keepRefs <;> simp [Event.isScanner]
  rw [RunE_trace_of_pastDiscovery env f r dir commits h]
  simp only [List.filter_append, hpre, hclose, hmk, hrm, List.nil_append, List.append_nil]
  rw [runScanner_trace]
  split
  · simp [Event.isScanner]
  · split <;> simp [Event.isScanner]

/-- C9 at a run with the scanner `"GitLeaks"`: the one scanner call is `RunGitleaks` on
the repository directory, with the one (empty) argument `strings.Split` makes of the
empty argument string. -/
theorem scanner_dispatch_witness :
    PastDiscovery (storeEnv [] [commitOf 1] none none) (flagsOf "GitLeaks" false) []
        "/repo" [commitOf 1] ∧
      (RunE (storeEnv [] [commitOf 1] none none) (flagsOf "GitLeaks" false)).trace.filter
          Event.isScanner = [Event.runGitleaks "/repo" "" [""]] :=
  ⟨⟨by decide, rfl, rfl⟩,
    scanner_dispatch (storeEnv [] [commitOf 1] none none) (flagsOf "GitLeaks" false) []
      "/repo" [commitOf 1] ⟨by decide, rfl, rfl⟩⟩

/-! ## The scan command: exposure and cleanup -/

/-- C2. In a run that got past discovery with `keepRefs` off, the calls of
`git.RemoveReferences` in the trace are exactly one, its argument is `createdRefs` as the
loop left it (the names of the refs whose `git.MakeRef` succeeded), and it comes after
every `git.MakeRef` call and after the scanner step, followed only by the closing of the
output file; this for every result of the scanner step. -/
theorem removeReferences_once_after_scanner {Repo : Type} (env : Env Repo) (f : Flags)
    (r : Repo) (dir : String) (commits : List Commit)
    (h : PastDiscovery env f r dir commits) (hk : f.keepRefs = false) :
    (RunE env f).trace.filter Event.isRemoveReferences =
        [Event.removeReferences (exposeLoop env (initState r) commits).createdRefs] ∧
      (exposeLoop env (initState r) commits).createdRefs = succeededRefs env r commits ∧
      ∃ before after,
        (RunE env f).trace = before ++
          Event.removeReferences (exposeLoop env (initState r) commits).createdRefs ::
            after ∧
        before.filter Event.isMakeRef =
          commits.map (fun c => Event.makeRef (refName c) c) ∧
        before.filter Event.isScanner = (runScanner env f dir (scannerArgs f)).2 ∧
        before.filter Event.isRemoveReferences = [] ∧
        ∀ ev ∈ after, ev = Event.closeOutput := by
  have hcr : (exposeLoop env (initState r) commits).createdRefs =
      succeededRefs env r commits := by
    rw [exposeLoop_createdRefs]; simp [initState]
  have htr := RunE_trace_of_pastDiscovery env f r dir commits h
  rw [hk] at htr
  simp only [Bool.false_eq_true, if_false] at htr
  have hp := preTrace_quiet env f dir
  have hc := closeTrace_quiet f
  obtain ⟨m1, m2, m3⟩ := filter_makeRefs commits
  obtain ⟨s1, s2, s3⟩ := filter_runScanner env f dir (scannerArgs f)
  refine ⟨?_, hcr, ?_⟩
  · rw [htr, hcr]
    simp [List.filter_append, filter_isRemoveReferences_of_quiet _ hp,
      filter_isRemoveReferences_of_quiet _ hc, m3, s3, Event.isRemoveReferences]
  · refine ⟨preTrace env f dir ++ (commits.map (fun c => Event.makeRef (refName c) c) ++
      (runScanner env f dir (scannerArgs f)).2), closeTrace f, ?_, ?_, ?_, ?_, ?_⟩
    · rw [htr, hcr]; simp
    · simp [List.filter_append, filter_isMakeRef_of_quiet _ hp, m1, s2]
    · simp [List.filter_append, filter_isScanner_of_quiet _ hp, m2, s1]
    · simp [List.filter_append, filter_isRemoveReferences_of_quiet _ hp, m3, s3]
    · intro ev hev
      unfold closeTrace at hev
      split at hev
      · simpa using hev
      · simp at hev

/-- C2 at a run in which the scanner fails: the two refs are created, the scanner runs,
and then the one `git.RemoveReferences` call receives the two created names. -/
theorem removeReferences_once_after_scanner_witness :
    (RunE (storeEnv [] [commitOf 1, commitOf 2] (some "leaks found") none)
        (flagsOf "gitleaks" false)).trace.filter Event.isRemoveReferences =
      [Event.removeReferences (exposeLoop
        (storeEnv [] [commitOf 1, commitOf 2] (some "leaks found") none) (initState [])
        [commitOf 1, commitOf 2]).createdRefs] ∧
    (exposeLoop (storeEnv [] [commitOf 1, commitOf 2] (some "leaks found") none)
        (initState []) [commitOf 1, commitOf 2]).createdRefs =
      [refName (commitOf 1), refName (commitOf 2)] :=
  ⟨(removeReferences_once_after_scanner
      (storeEnv [] [commitOf 1, commitOf 2] (some "leaks found") none)
      (flagsOf "gitleaks" false) [] "/repo" [commitOf 1, commitOf 2]
      ⟨by decide, rfl, rfl⟩ rfl).1, by decide⟩

/-- C6. With `keepRefs` set, no call of the run is a call of `git.RemoveReferences`, for
every result of the scanner step; and when the run got past discovery, the repository it
leaves is the repository as the loop of `git.MakeRef` calls left it. -/
theorem keepRefs_never_removes {Repo : Type} (env : Env Repo) (f : Flags)
    (hk : f.keepRefs = true) :
    (∀ ev ∈ (RunE env f).trace, ev.isRemoveReferences = false) ∧
      ∀ r dir commits, PastDiscovery env f r dir commits →
        (RunE env f).repo = some (exposeLoop env (initState r) commits).r := by
  refine ⟨?_, ?_⟩
  · rcases RunE_pastDiscovery_or_quiet env f with ⟨r, dir, commits, h⟩ | hq
    · have htr := RunE_trace_of_pastDiscovery env f r dir commits h
      rw [hk] at htr
      simp only [if_true, List.nil_append] at htr
      have hnil : (RunE env f).trace.filter Event.isRemoveReferences = [] := by
        rw [htr]
        simp [List.filter_append,
          filter_isRemoveReferences_of_quiet _ (preTrace_quiet env f dir),
          filter_isRemoveReferences_of_quiet _ (closeTrace_quiet f),
          (filter_makeRefs commits).2.2, (filter_runScanner env f dir (scannerArgs f)).2.2]
      rw [List.filter_eq_nil_iff] at hnil
      intro ev hev
      simpa using hnil ev hev
    · intro ev hev
      exact ((isQuiet_iff ev).1 (hq ev hev)).2.2
  · intro r dir commits h
    rw [RunE_repo_of_pastDiscovery env f r dir commits h, hk]
    simp

/-- C6 at a run with `keepRefs` set in which the scanner fails: no
`git.RemoveReferences` call, and in the repository the run leaves the created ref points
to the dangling commit. -/
theorem keepRefs_never_removes_witness :
    (∀ ev ∈ (RunE (storeEnv [] [commitOf 1] (some "leaks found") none)
        (flagsOf "gitleaks" true)).trace, ev.isRemoveReferences = false) ∧
      (RunE (storeEnv [] [commitOf 1] (some "leaks found") none)
        (flagsOf "gitleaks" true)).repo = some [(refName (commitOf 1), hashOf 1)] :=
  ⟨(keepRefs_never_removes (storeEnv [] [commitOf 1] (some "leaks found") none)
      (flagsOf "gitleaks" true) rfl).1,
    (keepRefs_never_removes (storeEnv [] [commitOf 1] (some "leaks found") none)
      (flagsOf "gitleaks" true) rfl).2 [] "/repo" [commitOf 1] ⟨by decide, rfl, rfl⟩⟩

/-- C5. In a run that got past discovery, for every list of dangling commits and every
pattern of `git.MakeRef` results: the `git.MakeRef` calls are one per commit, in list
order, each with the ref name of its commit, a failure never stopping the loop; the
scanner step follows them; `createdRefs` is the list of the ref names of the commits
whose call succeeded, in order, and is the only list handed to `git.RemoveReferences`;
so a name whose creation failed (every `git.MakeRef` call for it returned an error, as on
a collision with a ref that was there before) is in no list handed to
`git.RemoveReferences`. With pairwise distinct hashes this holds of the name of every
commit whose call failed. -/
theorem expose_loop_calls_and_created {Repo : Type} (env : Env Repo) (f : Flags)
    (r : Repo) (dir : String) (commits : List Commit)
    (h : PastDiscovery env f r dir commits) :
    (RunE env f).trace.filter Event.isMakeRef =
        commits.map (fun c => Event.makeRef (refName c) c) ∧
      (∃ before after, (RunE env f).trace =
          before ++ commits.map (fun c => Event.makeRef (refName c) c) ++
            (runScanner env f dir (scannerArgs f)).2 ++ after ∧
        (∀ ev ∈ before ++ after, ev.isMakeRef = false ∧ ev.isScanner = false)) ∧
      (exposeLoop env (initState r) commits).createdRefs = succeededRefs env r commits ∧
      (∀ refs, Event.removeReferences refs ∈ (RunE env f).trace →
        refs = (exposeLoop env (initState r) commits).createdRefs) ∧
      (∀ refs, Event.removeReferences refs ∈ (RunE env f).trace →
        ∀ name : String,
          (∀ p ∈ commits.zip (makeRefResults env r commits),
            refName p.1 = name → p.2 ≠ none) →
          name ∉ refs) ∧
      ((commits.map (fun c => c.Hash)).Nodup →
        ∀ c e, (c, some e) ∈ commits.zip (makeRefResults env r commits) →
          ∀ refs, Event.removeReferences refs ∈ (RunE env f).trace → refName c ∉ refs) := by
  have hcr : (exposeLoop env (initState r) commits).createdRefs =
      succeededRefs env r commits := by
    rw [exposeLoop_createdRefs]; simp [initState]
  obtain ⟨f1, _, f3⟩ := RunE_filters_of_pastDiscovery env f r dir commits h
  have hrm : ∀ refs, Event.removeReferences refs ∈ (RunE env f).trace →
      refs = succeededRefs env r commits := by
    intro refs hmem
    have : Event.removeReferences refs ∈
        (RunE env f).trace.filter Event.isRemoveReferences := by
      rw [List.mem_filter]; exact ⟨hmem, rfl⟩
    rw [f3] at this
    split at this
    · simp at this
    · simpa using this
  refine ⟨f1, ?_, hcr, ?_, ?_, ?_⟩
  · refine ⟨preTrace env f dir, (if f.keepRefs then []
      else [Event.removeReferences (succeededRefs env r commits)]) ++ closeTrace f, ?_, ?_⟩
    · rw [RunE_trace_of_pastDiscovery env f r dir commits h]; simp
    · intro ev hev
      simp only [List.mem_append] at hev
      rcases hev with hev | hev | hev
      · have := (isQuiet_iff ev).1 (preTrace_quiet env f dir ev hev)
        exact ⟨this.1, this.2.1⟩
      · split at hev
        · simp at hev
        · simp only [List.mem_singleton] at hev
          subst hev
          exact ⟨rfl, rfl⟩
      · have := (isQuiet_iff ev).1 (closeTrace_quiet f ev hev)
        exact ⟨this.1, this.2.1⟩
  · intro refs hmem
    rw [hcr]; exact hrm refs hmem
  · intro refs hr name hfail hin
    rw [hrm refs hr] at hin
    simp only [succeededRefs, List.mem_map, List.mem_filter] at hin
    obtain ⟨p, ⟨hp, hnone⟩, hname⟩ := hin
    apply hfail p hp hname
    cases hp2 : p.2 with
    | none => rfl
    | some e => rw [hp2] at hnone; simp at hnone
  · intro hnd c e hmem refs hr
    rw [hrm refs hr]
    exact failed_not_mem_succeededRefs env commits r hnd c e hmem

/-- C5 at a run with keep-refs off on two dangling commits, the name of the first being
taken by a ref that was there before: the first call fails, the second succeeds, and
`git.RemoveReferences` receives the second name only, not the name whose creation
failed. -/
theorem expose_loop_calls_and_created_witness :
    makeRefResults (storeEnv [(refName (commitOf 1), hashOf 9)] [commitOf 1, commitOf 2]
        none none) [(refName (commitOf 1), hashOf 9)] [commitOf 1, commitOf 2] =
      [some ("reference already exists: " ++ refName (commitOf 1)), none] ∧
    (exposeLoop (storeEnv [(refName (commitOf 1), hashOf 9)] [commitOf 1, commitOf 2]
        none none) (initState [(refName (commitOf 1), hashOf 9)])
        [commitOf 1, commitOf 2]).createdRefs = [refName (commitOf 2)] ∧
    (∀ refs, Event.removeReferences refs ∈
        (RunE (storeEnv [(refName (commitOf 1), hashOf 9)] [commitOf 1, commitOf 2]
          none none) (flagsOf "gitleaks" false)).trace →
      refName (commitOf 1) ∉ refs) :=
  ⟨by decide, by decide, fun refs hr =>
    (expose_loop_calls_and_created
      (storeEnv [(refName (commitOf 1), hashOf 9)] [commitOf 1, commitOf 2] none none)
      (flagsOf "gitleaks" false) [(refName (commitOf 1), hashOf 9)] "/repo"
      [commitOf 1, commitOf 2] ⟨by decide, rfl, rfl⟩).2.2.2.2.1 refs hr
      (refName (commitOf 1)) (by decide)⟩

/-! ## The scan command: the value returned -/

/-- C1 (code bug). A run with keep-refs off in which `RunGitleaks` returns the error
`"leaks found"` and the removal of the refs succeeds returns `nil`: the deferred cleanup
assigns the result of `git.RemoveReferences` to the named result `err`. With keep-refs
set the same run returns the scanner's error. -/
theorem scanner_error_lost_when_cleanup_succeeds :
    PastDiscovery (storeEnv [] [commitOf 1] (some "leaks found") none)
        (flagsOf "gitleaks" false) [] "/repo" [commitOf 1] ∧
      (runScanner (storeEnv [] [commitOf 1] (some "leaks found") none)
        (flagsOf "gitleaks" false) "/repo" (scannerArgs (flagsOf "gitleaks" false))).1 =
        some "leaks found" ∧
      (RunE (storeEnv [] [commitOf 1] (some "leaks found") none)
        (flagsOf "gitleaks" false)).err = none ∧
      (RunE (storeEnv [] [commitOf 1] (some "leaks found") none)
        (flagsOf "gitleaks" true)).err = some "leaks found" :=
  ⟨⟨by decide, rfl, rfl⟩, by decide, by decide, by decide⟩

/-- C3 (code bug). A run with keep-refs off in which the scanner succeeds and
`git.RemoveReferences` returns the error `"cannot remove ref"` returns that error: the
deferred cleanup assigns it to the named result `err`. -/
theorem removal_error_becomes_result :
    PastDiscovery (storeEnv [] [commitOf 1] none (some "cannot remove ref"))
        (flagsOf "gitleaks" false) [] "/repo" [commitOf 1] ∧
      (runScanner (storeEnv [] [commitOf 1] none (some "cannot remove ref"))
        (flagsOf "gitleaks" false) "/repo" (scannerArgs (flagsOf "gitleaks" false))).1 =
        none ∧
      (RunE (storeEnv [] [commitOf 1] none (some "cannot remove ref"))
        (flagsOf "gitleaks" false)).err = some "cannot remove ref" :=
  ⟨⟨by decide, rfl, rfl⟩, by decide, by decide⟩

/-- C4 (code bug). A run with keep-refs off and the scanner name `"nosuch"`, in which
the removal of the refs succeeds, returns `nil`: the error `unknown scanner 'nosuch'`
the switch assigned is overwritten by the deferred cleanup. With keep-refs set the same
run returns the error. -/
theorem unknown_scanner_error_lost :
    PastDiscovery (storeEnv [] [commitOf 1] none none) (flagsOf "nosuch" false) []
        "/repo" [commitOf 1] ∧
      asciiToLower "nosuch" ≠ "gitleaks" ∧ asciiToLower "nosuch" ≠ "trufflehog" ∧
      (runScanner (storeEnv [] [commitOf 1] none none) (flagsOf "nosuch" false) "/repo"
        (scannerArgs (flagsOf "nosuch" false))).1 = some "unknown scanner 'nosuch'" ∧
      (RunE (storeEnv [] [commitOf 1] none none) (flagsOf "nosuch" false)).err = none ∧
      (RunE (storeEnv [] [commitOf 1] none none) (flagsOf "nosuch" true)).err =
        some "unknown scanner 'nosuch'" :=
  ⟨⟨by decide, rfl, rfl⟩, by decide, by decide, by decide, by decide, by decide⟩

/-! ## Ref names and scanner arguments -/

/-- C8. The ref name of a dangling commit is `"refs/dangling/"` followed by the hex
string of its hash (forty digits, two per byte): commits with the same hash have the same
name, every name starts with `refs/dangling/`, commits with distinct hashes have distinct
names, and every `git.MakeRef` call of a run is made with the name of its commit. -/
theorem refName_reserved_injective :
    (∀ c : Commit, refName c = "refs/dangling/" ++ c.Hash.String ∧
      c.Hash.String.data = hexEncode c.Hash.bytes ∧ c.Hash.String.length = 40) ∧
      (∀ c d : Commit, c.Hash = d.Hash → refName c = refName d) ∧
      (∀ c : Commit, "refs/dangling/".data <+: (refName c).data) ∧
      (∀ c d : Commit, c.Hash ≠ d.Hash → refName c ≠ refName d) ∧
      (∀ (Repo : Type) (env : Env Repo) (f : Flags) (ref : String) (c : Commit),
        Event.makeRef ref c ∈ (RunE env f).trace → ref = refName c) := by
  refine ⟨?_, ?_, ?_, ?_, ?_⟩
  · intro c
    refine ⟨rfl, rfl, ?_⟩
    show (hexEncode c.Hash.bytes).length = 40
    rw [hexEncode_length, c.Hash.size]
  · intro c d h
    simp [refName, h]
  · intro c
    rw [refName_data]
    exact List.prefix_append _ _
  · intro c d h e
    exact h (refName_injective c d e)
  · intro Repo env f ref c hmem
    rcases RunE_pastDiscovery_or_quiet env f with ⟨r, dir, commits, h⟩ | hq
    · have hf : Event.makeRef ref c ∈ (RunE env f).trace.filter Event.isMakeRef := by
        rw [List.mem_filter]; exact ⟨hmem, rfl⟩
      rw [(RunE_filters_of_pastDiscovery env f r dir commits h).1] at hf
      simp only [List.mem_map, Event.makeRef.injEq] at hf
      obtain ⟨c', _, h1, h2⟩ := hf
      rw [← h1, h2]
    · have := ((isQuiet_iff _).1 (hq _ hmem)).1
      simp [Event.isMakeRef] at this

/-- C10. The argument list is `strings.Split(userArgs, " ")`, followed by
`"--config=" + scannerConfig` exactly when `scannerConfig` is not empty; it is never
empty. Joining the split part with single spaces gives `userArgs` back, no piece holds a
space and there is one piece more than there are spaces; the empty string splits into
`[""]`, which is the whole list when there is no config path; and two consecutive spaces
give an empty piece. -/
theorem scannerArgs_split_and_config (f : Flags) :
    scannerArgs f = Split f.userArgs ++
        (if f.scannerConfig = "" then [] else ["--config=" ++ f.scannerConfig]) ∧
      scannerArgs f ≠ [] ∧
      Join (Split f.userArgs) " " = f.userArgs ∧
      (∀ p ∈ Split f.userArgs, ' ' ∉ p.data) ∧
      (Split f.userArgs).length = f.userArgs.data.count ' ' + 1 ∧
      Split "" = [""] ∧
      scannerArgs { f with userArgs := "", scannerConfig := "" } = [""] ∧
      scannerArgs { f with userArgs := "" } =
        "" :: (if f.scannerConfig = "" then [] else ["--config=" ++ f.scannerConfig]) ∧
      (∀ a b : String, Split (a ++ "  " ++ b) = Split a ++ "" :: Split b) := by
  have hargs : ∀ g : Flags, scannerArgs g = Split g.userArgs ++
      (if g.scannerConfig = "" then [] else ["--config=" ++ g.scannerConfig]) := by
    intro g
    unfold scannerArgs
    by_cases h : g.scannerConfig = ""
    · simp [h]
    · simp [h]
  have hne : Split f.userArgs ≠ [] := by
    unfold Split
    simp [splitChars_ne_nil]
  have hempty : Split "" = [""] := by decide
  refine ⟨hargs f, ?_, Join_Split _, ?_, ?_, hempty, ?_, ?_, ?_⟩
  · rw [hargs f]
    simp [hne]
  · intro p hp
    unfold Split at hp
    simp only [List.mem_map] at hp
    obtain ⟨q, hq, rfl⟩ := hp
    exact not_mem_of_mem_splitChars ' ' _ q hq
  · unfold Split
    rw [List.length_map, splitChars_length]
  · rw [hargs]; simp [hempty]
  · rw [hargs]; simp [hempty]
  · intro a b
    have h2 : a ++ "  " ++ b = a ++ " " ++ (" " ++ b) := by
      apply String.ext; simp
    have h3 : Split (" " ++ b) = "" :: Split b := by
      have := Split_append_space "" b
      simpa [hempty] using this
    rw [h2, Split_append_space, h3]

end GitScanner
